import Mathlib

/-!
Verification development for the engbot spaced-repetition engine
(`internal/spaced_repetition/sm2.go`, `internal/bot/handlers.go`,
`internal/database/repetition_repository.go` and the scheduler variants
bundled with it).

Modelling conventions (shallow embedding of the Go source):
- Go `float64` values (the easiness factor) are modelled as exact
  rationals (ℚ); the SM-2 arithmetic only involves small decimal
  constants, so the facts proved here are about the exact arithmetic the
  code implements.
- Go `time.Time` values are modelled as integers (days on an absolute
  scale); `AddDate(0, 0, k)` becomes integer addition of `k`.
- The adaptive variant stores dates as RFC3339 strings; a date string is
  modelled by its parse result: `Option ℤ`, where `none` stands for a
  string that fails `time.Parse` and `some t` for a string that parses
  to time `t`.  `Format` always produces a parseable string, so the
  updater writes `some _`.
- Go `int` fields are modelled as ℤ.  Go slice indexing panics on an
  out-of-range index; the embedding uses `getD` with default `0`, and
  theorems carry the non-negativity hypotheses that hold for every state
  the program constructs.
- `sort.Slice` guarantees a permutation of the input that is sorted
  under the comparator; the embedding realises that contract with a
  deterministic insertion sort over the same comparator.
-/

namespace Engbot

/-- `models.UserProgress` (`pkg/models/user_progress.go`): the per
(learner, word) review state mutated by the SM-2 updater.  Date strings
are modelled by their parse results (see the file header). -/
structure UserProgress where
  lastReviewDate : Option ℤ
  nextReviewDate : Option ℤ
  interval : ℤ
  easinessFactor : ℚ
  repetitions : ℤ
  lastQuality : ℤ
  consecutiveRight : ℤ
  deriving Repr, DecidableEq

/-- The `SM2` configuration struct (`internal/spaced_repetition/sm2.go`
lines 11-18). -/
structure SM2 where
  passThreshold : ℤ
  maxInterval : ℤ
  initialIntervals : List ℤ
  deriving Repr, DecidableEq

/-- `NewSM2` (`sm2.go` lines 21-27): the default configuration.  Note
the leading `0` in `InitialIntervals`. -/
def NewSM2 : SM2 :=
  { passThreshold := 3
    maxInterval := 365
    initialIntervals := [0, 1, 2, 3, 7, 10, 15, 20, 30] }

/-- Go conversion `int(x)` applied to a `float64`: truncation toward
zero. -/
def truncQ (x : ℚ) : ℤ :=
  if 0 ≤ x then ⌊x⌋ else ⌈x⌉

/-- The easiness-factor update inside `Process` (`sm2.go` lines 54-61):
`EF + (0.1 - (5-q)*(0.08 + (5-q)*0.02))`, clamped below at `1.3`. -/
def efUpdate (ef : ℚ) (quality : ℤ) : ℚ :=
  let newEF := ef + (1/10 - (5 - (quality : ℚ)) * (2/25 + (5 - (quality : ℚ)) * (1/50)))
  if newEF < 13/10 then 13/10 else newEF

/-- `(*SM2).Process` (`sm2.go` lines 48-99).  `now` is the wall clock
read at the top of the function; the Go method mutates `progress` in
place, the embedding returns the updated record. -/
def Process (sm : SM2) (progress : UserProgress) (quality : ℤ) (now : ℤ) : UserProgress :=
  let p1 : UserProgress :=
    { progress with
        lastReviewDate := some now
        lastQuality := quality
        easinessFactor := efUpdate progress.easinessFactor quality }
  let p2 : UserProgress :=
    if quality ≥ 3 then
      -- correct response
      let nextInterval : ℤ :=
        if p1.repetitions = 0 then
          sm.initialIntervals.getD 0 0
        else if p1.repetitions < (sm.initialIntervals.length : ℤ) then
          sm.initialIntervals.getD p1.repetitions.toNat 0
        else
          truncQ ((p1.interval : ℚ) * p1.easinessFactor)
      let nextInterval := if nextInterval > sm.maxInterval then sm.maxInterval else nextInterval
      { p1 with
          consecutiveRight := p1.consecutiveRight + 1
          interval := nextInterval
          repetitions := p1.repetitions + 1 }
    else
      -- incorrect response: reset interval and the consecutive counter,
      -- keep the repetition count
      { p1 with consecutiveRight := 0, interval := 1 }
  { p2 with nextReviewDate := some (now + p2.interval) }

/-- The interval selected by the passed branch of `Process` (`sm2.go`
lines 69-85), including the cap at `MaxInterval`; a restructuring
device used by the lemmas below. -/
def passInterval (sm : SM2) (p : UserProgress) (q : ℤ) : ℤ :=
  let raw :=
    if p.repetitions = 0 then sm.initialIntervals.getD 0 0
    else if p.repetitions < (sm.initialIntervals.length : ℤ) then
      sm.initialIntervals.getD p.repetitions.toNat 0
    else truncQ ((p.interval : ℚ) * efUpdate p.easinessFactor q)
  if raw > sm.maxInterval then sm.maxInterval else raw

/-- `(*SM2).ComputeNextInterval` (`sm2.go` lines 184-215): an uncalled
variant of the updater kept in the source; unlike `Process` it resets
the repetition count to 0 on a failed answer.  Returns
(interval, EF, repetitions). -/
def ComputeNextInterval (sm : SM2) (quality repetitions : ℤ) (currentEF : ℚ)
    (currentInterval : ℤ) : ℤ × ℚ × ℤ :=
  let newEF := efUpdate currentEF quality
  if quality ≥ sm.passThreshold then
    let newRepetitions := repetitions + 1
    if newRepetitions < (sm.initialIntervals.length : ℤ) then
      (sm.initialIntervals.getD newRepetitions.toNat 0, newEF, newRepetitions)
    else
      let newInterval := truncQ ((currentInterval : ℚ) * newEF)
      (if newInterval > sm.maxInterval then sm.maxInterval else newInterval, newEF, newRepetitions)
  else
    (1, newEF, 0)

/-- The due predicate of `GetNextWords` (`sm2.go` lines 107-113): an
entry is kept when its date string fails to parse (`err != nil`) or the
parsed date is not after `now`. -/
def isDue (now : ℤ) (p : UserProgress) : Bool :=
  match p.nextReviewDate with
  | none => true
  | some d => decide (d ≤ now)

/-- The date comparison of the third sort priority (`sm2.go` lines
140-154): two parsed dates compare with `Before`; an entry whose date
fails to parse sorts after every entry with a valid date, and two
unparseable dates are tied. -/
def dateLt : Option ℤ → Option ℤ → Bool
  | some dI, some dJ => decide (dI < dJ)
  | none, _ => false
  | some _, none => true

/-- The comparator passed to `sort.Slice` in `GetNextWords` (`sm2.go`
lines 121-158).  The final `return i < j` of the source is dead code
(every argument combination returns earlier), so the comparator is a
pure function of the two elements. -/
def ltProgress (a b : UserProgress) : Bool :=
  if a.repetitions = 0 ∧ b.repetitions > 0 then true
  else if b.repetitions = 0 ∧ a.repetitions > 0 then false
  else if a.easinessFactor < b.easinessFactor then true
  else if b.easinessFactor < a.easinessFactor then false
  else dateLt a.nextReviewDate b.nextReviewDate

/-- The non-strict order induced by the comparator: `a` may stay before
`b` exactly when the comparator does not demand `b` before `a`. -/
def leProgress (a b : UserProgress) : Prop := ltProgress b a = false

/-- Ordered insertion w.r.t. `ltProgress` (auxiliary for the model of
`sort.Slice`). -/
def insertOrd (a : UserProgress) : List UserProgress → List UserProgress
  | [] => [a]
  | b :: l => if ltProgress a b then a :: b :: l else b :: insertOrd a l

/-- Insertion sort w.r.t. `ltProgress`: a deterministic realisation of
the `sort.Slice` contract (sorted permutation of the input). -/
def sortProgress : List UserProgress → List UserProgress
  | [] => []
  | a :: l => insertOrd a (sortProgress l)

/-- `(*SM2).GetNextWords` (`sm2.go` lines 102-166): keep the due
entries, sort them by the priority comparator, then truncate to
`limit`. -/
def GetNextWords (userProgress : List UserProgress) (limit : ℕ) (now : ℤ) :
    List UserProgress :=
  (sortProgress (userProgress.filter (isDue now))).take limit

/-- `(*SM2).IsWordMastered` (`sm2.go` lines 169-177). -/
def IsWordMastered (p : UserProgress) : Bool :=
  decide (p.repetitions ≥ 5) && decide (p.lastQuality ≥ 4) && decide (p.interval ≥ 30)

/-- Rounding to the nearest integer.  This is the operation the spec
prescribes for the adaptive interval growth ("interval' =
round(interval * ef')"); the code uses `int(...)` truncation instead,
and the two are compared in the C2 counterexample. -/
def roundSpec (x : ℚ) : ℤ := ⌊x + 1/2⌋

/-- `models.Repetition` (ladder variant, topic-level review state). -/
structure Repetition where
  id : ℤ
  userID : ℤ
  topicID : ℤ
  repetitionNumber : ℤ
  nextReviewDate : ℤ
  lastReviewDate : Option ℤ
  completed : Bool
  deriving Repr, DecidableEq

/-- The fixed ladder of `CalculateNextReviewDate`
(`repetition_repository.go` lines 117-131). -/
def ladderIntervals : List ℤ := [1, 2, 3, 7, 15, 25, 40]

/-- `(*RepetitionRepository).CalculateNextReviewDate`
(`repetition_repository.go` lines 117-131): clamps the repetition
number to the last ladder index and offsets `now` by the selected
interval. -/
def CalculateNextReviewDate (now : ℤ) (repetitionNumber : ℤ) : ℤ :=
  let idx :=
    if repetitionNumber ≥ (ladderIntervals.length : ℤ) then (ladderIntervals.length : ℤ) - 1
    else repetitionNumber
  now + ladderIntervals.getD idx.toNat 0

/-- `(*Bot).handleTopicComplete` (`handlers.go` lines 799-850), state
part: the current repetition is marked completed with `now` as its last
review date; a next stage (with its due date) is created only when the
current repetition number is below 7.  Returns the updated record and
the optionally created next stage. -/
def handleTopicComplete (now : ℤ) (rep : Repetition) : Repetition × Option Repetition :=
  let updated := { rep with completed := true, lastReviewDate := some now }
  if rep.repetitionNumber < 7 then
    (updated,
      some { id := 0
             userID := rep.userID
             topicID := rep.topicID
             repetitionNumber := rep.repetitionNumber + 1
             nextReviewDate := CalculateNextReviewDate now rep.repetitionNumber
             lastReviewDate := none
             completed := false })
  else
    (updated, none)

/-- `models.User` (`pkg/models/user.go`), the fields the scheduler tick
reads. -/
structure User where
  id : ℤ
  telegramID : ℤ
  wordsPerDay : ℤ
  notificationEnabled : Bool
  notificationHour : ℤ
  deriving Repr, DecidableEq

/-- The per-learner loop of `checkAndSendReminders` in the words-based
scheduler (`repetition_repository.go` bundle, lines 238-259): for each
eligible user, fetch the due words; when there are any, send one
reminder whose count is capped at `WordsPerDay`.  `dueWords` models the
store fetch; the result lists the `(userID, count)` notifier calls. -/
def checkAndSendRemindersWords (users : List User) (dueWords : ℤ → List UserProgress) :
    List (ℤ × ℤ) :=
  users.filterMap fun u =>
    let n : ℤ := ((dueWords u.id).length : ℤ)
    if n > 0 then some (u.id, if n > u.wordsPerDay then u.wordsPerDay else n) else none

/-- The per-learner loop of `checkAndSendReminders` in the
repetitions-based (ladder) scheduler (`repetition_repository.go`
bundle, lines 508-535): for each eligible user, fetch the due
repetitions; when there are any, send one reminder carrying the raw
due count (no cap) to the user's Telegram id. -/
def checkAndSendRemindersRepetitions (users : List User) (dueReps : ℤ → List Repetition) :
    List (ℤ × ℤ) :=
  users.filterMap fun u =>
    let n : ℤ := ((dueReps u.id).length : ℤ)
    if n = 0 then none else some (u.telegramID, n)

/-- A freshly created review state (`handleQualityResponse`, bot
handlers: `EF = 2.5, Interval = 0, Repetitions = 0`). -/
def pFresh : UserProgress :=
  { lastReviewDate := none
    nextReviewDate := none
    interval := 0
    easinessFactor := 5/2
    repetitions := 0
    lastQuality := 0
    consecutiveRight := 0 }

/-- A state beyond the initial ladder: 9 repetitions, interval 3 days,
EF 2.5. -/
def pNine : UserProgress :=
  { lastReviewDate := none
    nextReviewDate := none
    interval := 3
    easinessFactor := 5/2
    repetitions := 9
    lastQuality := 0
    consecutiveRight := 0 }

/-- A reviewed state with an integral EF, used by concrete witnesses. -/
def pEF2 : UserProgress :=
  { lastReviewDate := none
    nextReviewDate := some 0
    interval := 1
    easinessFactor := 2
    repetitions := 1
    lastQuality := 3
    consecutiveRight := 1 }

/-- A never-reviewed due state, used by concrete witnesses. -/
def pNew : UserProgress :=
  { lastReviewDate := none
    nextReviewDate := some (-1)
    interval := 0
    easinessFactor := 3
    repetitions := 0
    lastQuality := 0
    consecutiveRight := 0 }

/-- A state whose stored date string fails to parse, used by concrete
witnesses. -/
def pBadDate : UserProgress :=
  { lastReviewDate := none
    nextReviewDate := none
    interval := 1
    easinessFactor := 2
    repetitions := 2
    lastQuality := 3
    consecutiveRight := 2 }

/-- A ladder repetition record, used by concrete inputs. -/
def repDummy : Repetition :=
  { id := 0
    userID := 1
    topicID := 1
    repetitionNumber := 1
    nextReviewDate := 0
    lastReviewDate := none
    completed := false }

/-- A learner whose daily cap is 2 words, used by concrete inputs. -/
def userCap2 : User :=
  { id := 1
    telegramID := 11
    wordsPerDay := 2
    notificationEnabled := true
    notificationHour := 9 }

/- ------------------------------------------------------------------
   Helper lemmas
   ------------------------------------------------------------------ -/

lemma Process_fail {sm : SM2} {p : UserProgress} {q now : ℤ} (h : q < 3) :
    Process sm p q now =
      { p with
          lastReviewDate := some now
          lastQuality := q
          easinessFactor := efUpdate p.easinessFactor q
          consecutiveRight := 0
          interval := 1
          nextReviewDate := some (now + 1) } := by
  simp only [Process]
  rw [if_neg (show ¬ q ≥ 3 by omega)]

lemma Process_pass {sm : SM2} {p : UserProgress} {q now : ℤ} (h : 3 ≤ q) :
    Process sm p q now =
      { p with
          lastReviewDate := some now
          lastQuality := q
          easinessFactor := efUpdate p.easinessFactor q
          consecutiveRight := p.consecutiveRight + 1
          interval := passInterval sm p q
          repetitions := p.repetitions + 1
          nextReviewDate := some (now + passInterval sm p q) } := by
  simp only [Process, passInterval]
  rw [if_pos (show q ≥ 3 by omega)]

lemma efUpdate_ge (ef : ℚ) (q : ℤ) : 13/10 ≤ efUpdate ef q := by
  simp only [efUpdate]
  split
  · exact le_refl _
  · exact le_of_not_lt (by assumption)

lemma truncQ_nonneg {x : ℚ} (h : 0 ≤ x) : 0 ≤ truncQ x := by
  unfold truncQ
  rw [if_pos h]
  exact Int.le_floor.mpr (by exact_mod_cast h)

lemma initGetD_nonneg (n : ℕ) : 0 ≤ NewSM2.initialIntervals.getD n 0 := by
  rcases Nat.lt_or_ge n 9 with h | h
  · interval_cases n <;> decide
  · rw [List.getD_eq_default]
    simp [NewSM2]
    omega

lemma initGetD_le (n : ℕ) : NewSM2.initialIntervals.getD n 0 ≤ 365 := by
  rcases Nat.lt_or_ge n 9 with h | h
  · interval_cases n <;> decide
  · rw [List.getD_eq_default]
    · decide
    · simp [NewSM2]
      omega

lemma cap_nonneg {a m : ℤ} (ha : 0 ≤ a) (hm : 0 ≤ m) : 0 ≤ if a > m then m else a := by
  split
  · exact hm
  · exact ha

lemma passInterval_nonneg {p : UserProgress} {q : ℤ} (hi : 0 ≤ p.interval) :
    0 ≤ passInterval NewSM2 p q := by
  simp only [passInterval]
  refine cap_nonneg ?_ (by decide)
  split
  · exact initGetD_nonneg 0
  · split
    · exact initGetD_nonneg _
    · refine truncQ_nonneg (mul_nonneg (by exact_mod_cast hi) ?_)
      exact le_trans (by norm_num) (efUpdate_ge p.easinessFactor q)

lemma delta_mono {q1 q2 : ℤ} (h0 : 0 ≤ q1) (h12 : q1 ≤ q2) (h5 : q2 ≤ 5) :
    (1/10 - (5 - (q1 : ℚ)) * (2/25 + (5 - (q1 : ℚ)) * (1/50)))
      ≤ (1/10 - (5 - (q2 : ℚ)) * (2/25 + (5 - (q2 : ℚ)) * (1/50))) := by
  have ha : (q1 : ℚ) ≤ (q2 : ℚ) := by exact_mod_cast h12
  have hb : (q2 : ℚ) ≤ 5 := by exact_mod_cast h5
  have hc : (0 : ℚ) ≤ (q1 : ℚ) := by exact_mod_cast h0
  nlinarith [mul_nonneg (sub_nonneg.mpr ha) (sub_nonneg.mpr hb)]

lemma efUpdate_eq_max (ef : ℚ) (q : ℤ) :
    efUpdate ef q =
      max (ef + (1/10 - (5 - (q : ℚ)) * (2/25 + (5 - (q : ℚ)) * (1/50)))) (13/10) := by
  simp only [efUpdate]
  split
  · rw [max_eq_right (le_of_lt (by assumption))]
  · rw [max_eq_left (le_of_not_lt (by assumption))]

lemma efUpdate_mono (ef : ℚ) {q1 q2 : ℤ} (h0 : 0 ≤ q1) (h12 : q1 ≤ q2) (h5 : q2 ≤ 5) :
    efUpdate ef q1 ≤ efUpdate ef q2 := by
  rw [efUpdate_eq_max, efUpdate_eq_max]
  exact max_le_max (by linarith [delta_mono h0 h12 h5]) (le_refl _)

lemma Process_easinessFactor (sm : SM2) (p : UserProgress) (q now : ℤ) :
    (Process sm p q now).easinessFactor = efUpdate p.easinessFactor q := by
  rcases lt_or_ge q 3 with h | h
  · rw [Process_fail h]
  · rw [Process_pass h]

lemma dateLt_asymm {x y : Option ℤ} (h : dateLt x y = true) : dateLt y x = false := by
  cases x <;> cases y <;> simp_all [dateLt] <;> omega

lemma dateLt_trans {x y z : Option ℤ} (h1 : dateLt x y = true) (h2 : dateLt y z = true) :
    dateLt x z = true := by
  cases x <;> cases y <;> cases z <;> simp_all [dateLt] <;> omega

lemma ltProgress_asymm {a b : UserProgress} (h : ltProgress a b = true) :
    ltProgress b a = false := by
  unfold ltProgress at h ⊢
  split_ifs at h ⊢ <;>
    first
      | rfl
      | omega
      | exact absurd h Bool.false_ne_true
      | (exfalso; rename_i h1 h2; exact absurd h2 (lt_asymm h1))
      | linarith
      | exact dateLt_asymm h

lemma ltProgress_trans {a b c : UserProgress}
    (ha : 0 ≤ a.repetitions) (hb : 0 ≤ b.repetitions) (hc : 0 ≤ c.repetitions)
    (h1 : ltProgress a b = true) (h2 : ltProgress b c = true) :
    ltProgress a c = true := by
  unfold ltProgress at h1 h2 ⊢
  split_ifs at h1 h2 ⊢ <;>
    first
      | rfl
      | omega
      | exact absurd h1 Bool.false_ne_true
      | exact absurd h2 Bool.false_ne_true
      | linarith
      | exact dateLt_trans h1 h2

lemma ltProgress_negtrans {a b c : UserProgress}
    (ha : 0 ≤ a.repetitions) (hb : 0 ≤ b.repetitions) (hc : 0 ≤ c.repetitions)
    (hab : ltProgress a b = true) (hcb : ltProgress c b = false) :
    ltProgress c a = false := by
  rw [Bool.eq_false_iff]
  intro hca
  rw [ltProgress_trans hc ha hb hca hab] at hcb
  simp at hcb

lemma insertOrd_perm (a : UserProgress) (l : List UserProgress) :
    List.Perm (insertOrd a l) (a :: l) := by
  induction l with
  | nil => exact List.Perm.refl _
  | cons b t ih =>
    unfold insertOrd
    split
    · exact List.Perm.refl _
    · exact (List.Perm.cons b ih).trans (List.Perm.swap a b t)

lemma sortProgress_perm (l : List UserProgress) : List.Perm (sortProgress l) l := by
  induction l with
  | nil => exact List.Perm.refl _
  | cons a t ih => exact (insertOrd_perm a (sortProgress t)).trans (List.Perm.cons a ih)

lemma insertOrd_pairwise (a : UserProgress) :
    ∀ l : List UserProgress, (∀ x ∈ a :: l, 0 ≤ x.repetitions) →
      List.Pairwise leProgress l → List.Pairwise leProgress (insertOrd a l) := by
  intro l
  induction l with
  | nil =>
    intro _ _
    simp [insertOrd, List.pairwise_singleton]
  | cons b t ih =>
    intro hP hs
    unfold insertOrd
    split
    · rename_i hab
      refine List.pairwise_cons.mpr ⟨?_, hs⟩
      intro y hy
      rcases List.mem_cons.mp hy with rfl | hyt
      · exact ltProgress_asymm hab
      · have hby : ltProgress y b = false := (List.pairwise_cons.mp hs).1 y hyt
        exact ltProgress_negtrans (hP a (by simp)) (hP b (by simp)) (hP y (by simp [hyt]))
          hab hby
    · rename_i hab
      refine List.pairwise_cons.mpr ⟨?_, ?_⟩
      · intro y hy
        have hmem : y ∈ a :: t := (insertOrd_perm a t).mem_iff.mp hy
        rcases List.mem_cons.mp hmem with rfl | hyt
        · exact Bool.eq_false_iff.mpr hab
        · exact (List.pairwise_cons.mp hs).1 y hyt
      · refine ih ?_ (List.pairwise_cons.mp hs).2
        intro x hx
        rcases List.mem_cons.mp hx with rfl | hxt
        · exact hP x (by simp)
        · exact hP x (by simp [hxt])

lemma sortProgress_pairwise :
    ∀ l : List UserProgress, (∀ x ∈ l, 0 ≤ x.repetitions) →
      List.Pairwise leProgress (sortProgress l) := by
  intro l
  induction l with
  | nil => intro _; exact List.Pairwise.nil
  | cons a t ih =>
    intro hP
    refine insertOrd_pairwise a (sortProgress t) ?_ (ih ?_)
    · intro x hx
      rcases List.mem_cons.mp hx with rfl | hxt
      · exact hP x (by simp)
      · exact hP x (by simp [(sortProgress_perm t).mem_iff.mp hxt])
    · intro x hx
      exact hP x (by simp [hx])

lemma qHelper : (13 : ℚ)/10 ≤ 2 := by norm_num

/- ------------------------------------------------------------------
   Claim theorems
   ------------------------------------------------------------------ -/

/-- C1 (counterexample): the claim "the interval stored by `Process`
after any update is at least 1 day" fails on the code: a first-ever
pass (fresh state, quality 5) stores `InitialIntervals[0] = 0`. -/
theorem interval_min_one_cex : ¬ (1 ≤ (Process NewSM2 pFresh 5 0).interval) := by
  rw [Process_pass (by norm_num)]
  simp [passInterval, pFresh, NewSM2]

/-- C1 (amended): for every state with non-negative interval, the
interval stored by `Process` after any update and any quality is
non-negative, and after a failing review it is exactly 1; but on a
passed review with `repetitions = 0` it is `InitialIntervals[0] = 0`,
so a minimum of 1 is not enforced. -/
theorem interval_after_update (p : UserProgress) (q now : ℤ) (hi : 0 ≤ p.interval) :
    0 ≤ (Process NewSM2 p q now).interval
      ∧ (q < 3 → (Process NewSM2 p q now).interval = 1)
      ∧ (3 ≤ q → p.repetitions = 0 → (Process NewSM2 p q now).interval = 0) := by
  refine ⟨?_, ?_, ?_⟩
  · rcases lt_or_ge q 3 with h | h
    · rw [Process_fail h]
      show (0:ℤ) ≤ 1
      omega
    · rw [Process_pass h]
      exact passInterval_nonneg hi
  · intro h
    rw [Process_fail h]
  · intro h h0
    rw [Process_pass h]
    show passInterval NewSM2 p q = 0
    simp only [passInterval, if_pos h0]
    decide

/-- C1 (witness): the amended theorem evaluated at the fresh state with
a failing quality 2. -/
theorem interval_after_update_witness :
    0 ≤ pFresh.interval
      ∧ (0 ≤ (Process NewSM2 pFresh 2 0).interval
          ∧ ((2:ℤ) < 3 → (Process NewSM2 pFresh 2 0).interval = 1)
          ∧ ((3:ℤ) ≤ 2 → pFresh.repetitions = 0 → (Process NewSM2 pFresh 2 0).interval = 0)) :=
  ⟨by decide, interval_after_update pFresh 2 0 (by decide)⟩

/-- C2 (counterexample): the claim says the post-ladder interval is
`round(interval * ef')`; the code truncates instead.  At interval 3,
EF 2.5, repetitions 9 and quality 5 the product is 7.8: the code
stores 7 while rounding yields 8. -/
theorem pass_interval_round_cex :
    (Process NewSM2 pNine 5 0).interval = 7
      ∧ roundSpec ((pNine.interval : ℚ) * efUpdate pNine.easinessFactor 5) = 8 := by
  constructor
  · rw [Process_pass (by norm_num)]
    show passInterval NewSM2 pNine 5 = 7
    norm_num [passInterval, pNine, NewSM2, efUpdate, truncQ]
  · norm_num [roundSpec, pNine, efUpdate]

/-- C2 (amended): on a passed review (`q ≥ 3`), `Process` selects
`InitialIntervals[0]` when `repetitions = 0`, the ladder entry
`InitialIntervals[repetitions]` when `repetitions` indexes within the
ladder, and otherwise the truncation toward zero (not the rounding) of
`interval * ef'`, capped at `MaxInterval = 365`. -/
theorem pass_interval_formula (p : UserProgress) (q now : ℤ) (hq : 3 ≤ q)
    (hr : 0 ≤ p.repetitions) :
    (Process NewSM2 p q now).interval =
      if p.repetitions = 0 then NewSM2.initialIntervals.getD 0 0
      else if p.repetitions < (NewSM2.initialIntervals.length : ℤ) then
        NewSM2.initialIntervals.getD p.repetitions.toNat 0
      else min (truncQ ((p.interval : ℚ) * efUpdate p.easinessFactor q)) 365 := by
  rw [Process_pass hq]
  show passInterval NewSM2 p q = _
  have hm : NewSM2.maxInterval = 365 := rfl
  by_cases h0 : p.repetitions = 0
  · simp only [passInterval, if_pos h0]
    decide
  · by_cases h9 : p.repetitions < (NewSM2.initialIntervals.length : ℤ)
    · simp only [passInterval, if_neg h0, if_pos h9, hm]
      have hle := initGetD_le p.repetitions.toNat
      rw [if_neg (by omega)]
    · simp only [passInterval, if_neg h0, if_neg h9, hm]
      rcases le_or_lt (truncQ ((p.interval : ℚ) * efUpdate p.easinessFactor q)) 365 with h | h
      · rw [if_neg (by omega), min_eq_left h]
      · rw [if_pos (by omega), min_eq_right (by omega)]

/-- C2 (witness): the amended formula evaluated at the post-ladder
state with quality 5. -/
theorem pass_interval_formula_witness :
    (3:ℤ) ≤ 5 ∧ 0 ≤ pNine.repetitions
      ∧ (Process NewSM2 pNine 5 0).interval =
          (if pNine.repetitions = 0 then NewSM2.initialIntervals.getD 0 0
           else if pNine.repetitions < (NewSM2.initialIntervals.length : ℤ) then
             NewSM2.initialIntervals.getD pNine.repetitions.toNat 0
           else min (truncQ ((pNine.interval : ℚ) * efUpdate pNine.easinessFactor 5)) 365) :=
  ⟨by decide, by decide, pass_interval_formula pNine 5 0 (by decide) (by decide)⟩

/-- C3 (confirmed): a failing review (`q < 3`) through `Process`
always stores interval 1 and consecutive counter 0, and leaves the
repetition count unchanged. -/
theorem fail_resets_interval (sm : SM2) (p : UserProgress) (q now : ℤ) (h : q < 3) :
    (Process sm p q now).interval = 1
      ∧ (Process sm p q now).consecutiveRight = 0
      ∧ (Process sm p q now).repetitions = p.repetitions := by
  rw [Process_fail h]
  exact ⟨rfl, rfl, rfl⟩

/-- C3 (witness): a failing quality 1 on the reviewed state. -/
theorem fail_resets_interval_witness :
    (1:ℤ) < 3
      ∧ ((Process NewSM2 pEF2 1 0).interval = 1
          ∧ (Process NewSM2 pEF2 1 0).consecutiveRight = 0
          ∧ (Process NewSM2 pEF2 1 0).repetitions = pEF2.repetitions) :=
  ⟨by decide, fail_resets_interval NewSM2 pEF2 1 0 (by decide)⟩

/-- C4 (confirmed): for a prior EF ≥ 1.3 and quality in [0,5], the
updated EF equals the SM-2 formula clamped below at 1.3; it is always
at least 1.3, and it is monotonically non-decreasing in the quality for
a fixed prior EF. -/
theorem ef_update_spec (p : UserProgress) (q q' now : ℤ) (hef : 13/10 ≤ p.easinessFactor)
    (h0 : 0 ≤ q) (h5 : q ≤ 5) :
    ((Process NewSM2 p q now).easinessFactor
        = max (p.easinessFactor
            + (1/10 - (5 - (q : ℚ)) * (2/25 + (5 - (q : ℚ)) * (1/50)))) (13/10))
      ∧ 13/10 ≤ (Process NewSM2 p q now).easinessFactor
      ∧ (0 ≤ q' → q' ≤ 5 → q ≤ q' →
          (Process NewSM2 p q now).easinessFactor
            ≤ (Process NewSM2 p q' now).easinessFactor) := by
  refine ⟨?_, ?_, ?_⟩
  · rw [Process_easinessFactor, efUpdate_eq_max]
  · rw [Process_easinessFactor]
    exact efUpdate_ge _ _
  · intro h0' h5' hqq
    rw [Process_easinessFactor, Process_easinessFactor]
    exact efUpdate_mono _ h0 hqq h5'

/-- C4 (witness): the EF contract evaluated at EF 2 with qualities 3
and 4. -/
theorem ef_update_spec_witness :
    (13:ℚ)/10 ≤ pEF2.easinessFactor ∧ (0:ℤ) ≤ 3 ∧ (3:ℤ) ≤ 5
      ∧ (((Process NewSM2 pEF2 3 0).easinessFactor
            = max (pEF2.easinessFactor
                + (1/10 - (5 - ((3:ℤ) : ℚ)) * (2/25 + (5 - ((3:ℤ) : ℚ)) * (1/50)))) (13/10))
          ∧ 13/10 ≤ (Process NewSM2 pEF2 3 0).easinessFactor
          ∧ (0 ≤ (4:ℤ) → (4:ℤ) ≤ 5 → (3:ℤ) ≤ 4 →
              (Process NewSM2 pEF2 3 0).easinessFactor
                ≤ (Process NewSM2 pEF2 4 0).easinessFactor)) :=
  ⟨qHelper, by decide, by decide, ef_update_spec pEF2 3 4 0 qHelper (by decide) (by decide)⟩

/-- C5 (counterexample): the claim says an out-of-range quality is
rejected with an `InvalidQuality` error and no state change.  `Process`
has no error path: quality 6 on a fresh state is processed by the
passed branch (repetitions 0 → 1) and the out-of-range value itself is
stored in `lastQuality`. -/
theorem invalid_quality_cex :
    (Process NewSM2 pFresh 6 0).lastQuality = 6
      ∧ (Process NewSM2 pFresh 6 0).repetitions = 1
      ∧ pFresh.repetitions = 0 := by
  rw [Process_pass (by norm_num)]
  refine ⟨rfl, ?_, rfl⟩
  show pFresh.repetitions + 1 = 1
  rfl

/-- C5 (amended): `Process` performs no quality validation: every
quality, in or out of [0,5], is processed — the value is stored
unclamped in `lastQuality`, the review date is written, `q ≥ 3` takes
the passed branch (repetitions increment) and `q < 3` the failed
branch; no error is signalled and the state is always mutated. -/
theorem no_quality_validation (sm : SM2) (p : UserProgress) (q now : ℤ) :
    (Process sm p q now).lastQuality = q
      ∧ (Process sm p q now).lastReviewDate = some now
      ∧ (3 ≤ q → (Process sm p q now).repetitions = p.repetitions + 1)
      ∧ (q < 3 → (Process sm p q now).repetitions = p.repetitions
          ∧ (Process sm p q now).interval = 1) := by
  refine ⟨?_, ?_, ?_, ?_⟩
  · rcases lt_or_ge q 3 with h | h
    · rw [Process_fail h]
    · rw [Process_pass h]
  · rcases lt_or_ge q 3 with h | h
    · rw [Process_fail h]
    · rw [Process_pass h]
  · intro h
    rw [Process_pass h]
  · intro h
    rw [Process_fail h]
    exact ⟨rfl, rfl⟩

/-- C5 (witness): the amended behavior evaluated at the out-of-range
quality 7. -/
theorem no_quality_validation_witness :
    (Process NewSM2 pEF2 7 0).lastQuality = 7
      ∧ (Process NewSM2 pEF2 7 0).lastReviewDate = some 0
      ∧ ((3:ℤ) ≤ 7 → (Process NewSM2 pEF2 7 0).repetitions = pEF2.repetitions + 1)
      ∧ ((7:ℤ) < 3 → (Process NewSM2 pEF2 7 0).repetitions = pEF2.repetitions
          ∧ (Process NewSM2 pEF2 7 0).interval = 1) :=
  no_quality_validation NewSM2 pEF2 7 0

/-- C6 (confirmed): for review states with non-negative repetition
counts, `GetNextWords` returns a list sorted under the priority
comparator and truncated to the limit only after sorting: its length is
`min limit (number due)`, every due item left out is no higher priority
than any returned item, never-reviewed items are never preceded by
reviewed ones, and among reviewed items the EF is non-decreasing along
the returned order. -/
theorem due_selection_ordered (l : List UserProgress) (limit : ℕ) (now : ℤ)
    (hP : ∀ x ∈ l, 0 ≤ x.repetitions) :
    List.Pairwise leProgress (GetNextWords l limit now)
    ∧ (GetNextWords l limit now).length = min limit (l.filter (isDue now)).length
    ∧ (∀ x ∈ GetNextWords l limit now, ∀ y ∈ l.filter (isDue now),
        y ∉ GetNextWords l limit now → ltProgress y x = false)
    ∧ List.Pairwise (fun x y => ¬ (y.repetitions = 0 ∧ 0 < x.repetitions))
        (GetNextWords l limit now)
    ∧ List.Pairwise (fun x y => 0 < x.repetitions → 0 < y.repetitions →
        x.easinessFactor ≤ y.easinessFactor) (GetNextWords l limit now) := by
  have hPd : ∀ x ∈ l.filter (isDue now), 0 ≤ x.repetitions := by
    intro x hx
    exact hP x (List.mem_of_mem_filter hx)
  have hsorted : List.Pairwise leProgress (sortProgress (l.filter (isDue now))) :=
    sortProgress_pairwise _ hPd
  have htake : List.Pairwise leProgress (GetNextWords l limit now) :=
    hsorted.sublist (List.take_sublist _ _)
  refine ⟨htake, ?_, ?_, ?_, ?_⟩
  · rw [GetNextWords, List.length_take, (sortProgress_perm _).length_eq]
  · intro x hx y hy hyn
    have hys : y ∈ sortProgress (l.filter (isDue now)) :=
      (sortProgress_perm _).mem_iff.mpr hy
    rw [← List.take_append_drop limit (sortProgress (l.filter (isDue now)))] at hys hsorted
    have hyd : y ∈ (sortProgress (l.filter (isDue now))).drop limit := by
      rcases List.mem_append.mp hys with h | h
      · exact absurd h hyn
      · exact h
    exact (List.pairwise_append.mp hsorted).2.2 x hx y hyd
  · exact htake.imp (by
      intro x y hxy
      intro hcon
      have hyx : ltProgress y x = false := hxy
      have : ltProgress y x = true := by
        unfold ltProgress
        rw [if_pos (by omega)]
      rw [this] at hyx
      simp at hyx)
  · exact htake.imp (by
      intro x y hxy hx0 hy0
      by_contra hlt
      have hyx : ltProgress y x = false := hxy
      have : ltProgress y x = true := by
        unfold ltProgress
        rw [if_neg (by omega), if_neg (by omega), if_pos (by linarith)]
      rw [this] at hyx
      simp at hyx)

/-- C6 (witness): the ordering contract evaluated on a two-item due
list with limit 1. -/
theorem due_selection_ordered_witness :
    (∀ x ∈ [pEF2, pNew], 0 ≤ x.repetitions)
      ∧ (List.Pairwise leProgress (GetNextWords [pEF2, pNew] 1 0)
          ∧ (GetNextWords [pEF2, pNew] 1 0).length
              = min 1 ([pEF2, pNew].filter (isDue 0)).length
          ∧ (∀ x ∈ GetNextWords [pEF2, pNew] 1 0, ∀ y ∈ [pEF2, pNew].filter (isDue 0),
              y ∉ GetNextWords [pEF2, pNew] 1 0 → ltProgress y x = false)
          ∧ List.Pairwise (fun x y => ¬ (y.repetitions = 0 ∧ 0 < x.repetitions))
              (GetNextWords [pEF2, pNew] 1 0)
          ∧ List.Pairwise (fun x y => 0 < x.repetitions → 0 < y.repetitions →
              x.easinessFactor ≤ y.easinessFactor) (GetNextWords [pEF2, pNew] 1 0)) :=
  ⟨by decide, due_selection_ordered [pEF2, pNew] 1 0 (by decide)⟩

/-- C7 (confirmed): `GetNextWords` never returns an entry whose parsed
next-review date is strictly after `now`. -/
theorem due_selection_no_future (l : List UserProgress) (limit : ℕ) (now : ℤ)
    (p : UserProgress) (d : ℤ)
    (hmem : p ∈ GetNextWords l limit now) (hd : p.nextReviewDate = some d) :
    d ≤ now := by
  have h1 : p ∈ sortProgress (l.filter (isDue now)) :=
    List.mem_of_mem_take hmem
  have h2 : p ∈ l.filter (isDue now) := (sortProgress_perm _).mem_iff.mp h1
  have h3 : isDue now p = true := List.of_mem_filter h2
  rw [isDue, hd] at h3
  exact of_decide_eq_true h3

/-- C7 (witness): the no-future guarantee on a singleton list whose
entry is due at -1 with now = 0. -/
theorem due_selection_no_future_witness :
    pNew ∈ GetNextWords [pNew] 1 0 ∧ pNew.nextReviewDate = some (-1) ∧ (-1 : ℤ) ≤ 0 :=
  ⟨by decide, by decide, due_selection_no_future [pNew] 1 0 pNew (-1) (by decide) (by decide)⟩

/-- C8 (confirmed): in the ladder strategy, mastered is terminal — once
the repetition number has exceeded the ladder length (7), completing
the topic again marks the current record completed but schedules no
further stage and sets no new due date. -/
theorem ladder_mastered_terminal (now : ℤ) (rep : Repetition) (h : 7 < rep.repetitionNumber) :
    (handleTopicComplete now rep).2 = none
      ∧ (handleTopicComplete now rep).1.nextReviewDate = rep.nextReviewDate
      ∧ (handleTopicComplete now rep).1.completed = true := by
  simp only [handleTopicComplete]
  rw [if_neg (by omega)]
  exact ⟨rfl, rfl, rfl⟩

/-- C8 (witness): completing at repetition number 8 schedules
nothing. -/
theorem ladder_mastered_terminal_witness :
    (7:ℤ) < 8
      ∧ ((handleTopicComplete 0 { repDummy with repetitionNumber := 8 }).2 = none
          ∧ (handleTopicComplete 0 { repDummy with repetitionNumber := 8 }).1.nextReviewDate
              = ({ repDummy with repetitionNumber := 8 } : Repetition).nextReviewDate
          ∧ (handleTopicComplete 0 { repDummy with repetitionNumber := 8 }).1.completed = true) :=
  ⟨by decide, ladder_mastered_terminal 0 { repDummy with repetitionNumber := 8 } (by decide)⟩

/-- C9 (counterexample): the claim says every delivery carries
`min(dueCount, maxPerDay)`.  The repetitions-based (ladder) scheduler
sends the raw due count: a learner with cap 2 and 3 due repetitions
receives one event with count 3, not min(3, 2) = 2. -/
theorem reminder_cap_cex :
    checkAndSendRemindersRepetitions [userCap2] (fun _ => [repDummy, repDummy, repDummy])
        = [(11, 3)]
      ∧ ¬ ((3 : ℤ) = min 3 2) := by
  constructor
  · rfl
  · decide

/-- C9 (amended): on a tick, each eligible learner with a non-zero due
count gets exactly one delivery event and learners with zero due items
get none — in both scheduler variants; the words-based scheduler caps
the count at `min(dueCount, wordsPerDay)`, while the repetitions-based
(ladder) scheduler sends the raw due count uncapped. -/
theorem reminder_tick_events (users : List User) (dueW : ℤ → List UserProgress)
    (dueR : ℤ → List Repetition) :
    checkAndSendRemindersWords users dueW =
      (users.filter (fun u => decide ((dueW u.id).length ≠ 0))).map
        (fun u => (u.id, min ((dueW u.id).length : ℤ) u.wordsPerDay))
    ∧ checkAndSendRemindersRepetitions users dueR =
      (users.filter (fun u => decide ((dueR u.id).length ≠ 0))).map
        (fun u => (u.telegramID, ((dueR u.id).length : ℤ))) := by
  constructor
  · induction users with
    | nil => rfl
    | cons u t ih =>
      simp only [checkAndSendRemindersWords, List.filterMap_cons, List.filter_cons] at *
      by_cases h : (dueW u.id).length = 0
      · rw [if_neg (by omega), if_neg (by simp [h])]
        exact ih
      · have hmin : (if ((dueW u.id).length : ℤ) > u.wordsPerDay then u.wordsPerDay
            else ((dueW u.id).length : ℤ)) = min ((dueW u.id).length : ℤ) u.wordsPerDay := by
          rw [min_def]
          split_ifs <;> omega
        rw [hmin, if_pos (show ((dueW u.id).length : ℤ) > 0 by omega), if_pos (by simp [h])]
        simp only [List.map_cons]
        exact congrArg₂ List.cons rfl ih
  · induction users with
    | nil => rfl
    | cons u t ih =>
      simp only [checkAndSendRemindersRepetitions, List.filterMap_cons, List.filter_cons] at *
      by_cases h : (dueR u.id).length = 0
      · rw [if_pos (by omega), if_neg (by simp [h])]
        exact ih
      · rw [if_neg (by omega), if_pos (by simp [h])]
        simp only [List.map_cons]
        exact congrArg₂ List.cons rfl ih

/-- C10 (confirmed): an entry whose next-review date string fails to
parse is treated as due by `GetNextWords` — it always enters the due
set, and it appears in the returned list whenever the due set fits
within the limit. -/
theorem malformed_date_is_due (l : List UserProgress) (limit : ℕ) (now : ℤ)
    (p : UserProgress) (hmem : p ∈ l) (hnone : p.nextReviewDate = none) :
    p ∈ l.filter (isDue now)
      ∧ ((l.filter (isDue now)).length ≤ limit → p ∈ GetNextWords l limit now) := by
  have hdue : isDue now p = true := by rw [isDue, hnone]
  have hf : p ∈ l.filter (isDue now) := List.mem_filter.mpr ⟨hmem, hdue⟩
  refine ⟨hf, ?_⟩
  intro hlen
  have hs : p ∈ sortProgress (l.filter (isDue now)) := (sortProgress_perm _).mem_iff.mpr hf
  rw [GetNextWords, List.take_of_length_le (by rw [(sortProgress_perm _).length_eq]; exact hlen)]
  exact hs

/-- C10 (witness): a malformed-date entry in a singleton list is
returned. -/
theorem malformed_date_is_due_witness :
    pBadDate ∈ [pBadDate] ∧ pBadDate.nextReviewDate = none
      ∧ (pBadDate ∈ [pBadDate].filter (isDue 0)
          ∧ (([pBadDate].filter (isDue 0)).length ≤ 1 → pBadDate ∈ GetNextWords [pBadDate] 1 0)) :=
  ⟨by decide, by decide, malformed_date_is_due [pBadDate] 1 0 pBadDate (by decide) (by decide)⟩

end Engbot
